import Mathlib

/-!
Verification of the lobbyutil repository (graph extraction from a game level
plus label rendering) against its natural-language specification.

The Rust sources are shallowly embedded:

* `src/lib.rs` — anchor extraction (`warps`, `chapters`, `start_level`,
  `traverse_element`, `find_mini_heart_door`);
* `src/bin/walk.rs` — label allocation and NodeMap serialization;
* `src/bin/draw.rs` — `convert_path`, `create_arrow`, `conv_vert`, and the
  label compositing loop of `main`.

Machine floats (`f32`) are modelled by exact numbers: `ℚ` where only ring
operations and a total order are involved, and `ℝ` for the trigonometry in
`create_arrow`.  Rust `&str` comparison is byte-wise lexicographic on UTF-8,
which coincides with the character-wise lexicographic order on the list of
code points, i.e. with the order on `String` used here.  A Rust `panic!`
(`unwrap` / `expect` on a missing value) is modelled by `Option.none`.
-/

/-! ## Colors, stroke parameters and the label classification (draw.rs main) -/

/-- Model of a `tiny_skia::Color` produced by `from_rgba8`: four 8-bit
channels, kept as naturals. -/
structure Rgba where
  r : ℕ
  g : ℕ
  b : ℕ
  a : ℕ
deriving DecidableEq, Repr

/-- Model of `tiny_skia::LineCap` (only the variants used). -/
inductive LineCapM where
  | buttCap
  | roundCap
deriving DecidableEq, Repr

/-- Model of `tiny_skia::LineJoin` (only the variants used). -/
inductive LineJoinM where
  | miterJoin
  | roundJoin
deriving DecidableEq, Repr

/-- Model of the `tiny_skia::Stroke` fields set by `draw.rs`.  Widths are
exact rationals standing for the `f32` values. -/
structure StrokeM where
  width : ℚ
  miter_limit : ℚ
  line_cap : LineCapM
  line_join : LineJoinM
deriving DecidableEq, Repr

/-- The constant font size used for every label in `draw.rs` `main`
(`let font_size = 96.0`). -/
def label_font_size : ℚ := 96

/-- Fill-color classification from the label loop of `draw.rs` `main`
(lines 233–239): all-ASCII-digit label → warm pink, else all-ASCII-alphabetic
label → blue, else yellow.  Rust `text.chars()` is the sequence of code
points, i.e. `text.data`; `Char.isDigit` and `Char.isAlpha` coincide with
Rust `char::is_ascii_digit` / `char::is_ascii_alphabetic`. -/
def fill_color (text : String) : Rgba :=
  if text.data.all (fun c => c.isDigit) then ⟨255, 175, 195, 230⟩
  else if text.data.all (fun c => c.isAlpha) then ⟨150, 175, 255, 230⟩
  else ⟨255, 240, 100, 230⟩

/-- The fixed dark stroke color of the label loop
(`TinySkiaColor::from_rgba8(42, 12, 12, 250)`). -/
def stroke_color : Rgba := ⟨42, 12, 12, 250⟩

/-- The `Stroke` value built in the label loop of `draw.rs` `main`:
`width = (font_size / 24).round()`, `miter_limit = (font_size / 24).ceil()`,
round caps and joins.  `f32::round` rounds halves away from zero while
Mathlib `round` rounds halves up; at the only argument used, `96 / 24 = 4`,
the two agree exactly. -/
def label_stroke : StrokeM :=
  { width := (round (label_font_size / 24) : ℤ)
    miter_limit := (⌈label_font_size / 24⌉ : ℤ)
    line_cap := LineCapM.roundCap
    line_join := LineJoinM.roundJoin }

/-- Per-label drawing configuration chosen by one iteration of the label loop
of `draw.rs` `main`: the fill paint color (from the whole label string), the
stroke paint color and the stroke parameters. -/
def label_draw_config (text : String) : Rgba × Rgba × StrokeM :=
  (fill_color text, stroke_color, label_stroke)

/-- C7: the fill color is chosen once from the whole label string — warm pink
`(255,175,195,230)` when every character is a decimal digit, else blue
`(150,175,255,230)` when every character is alphabetic, else yellow
`(255,240,100,230)` — while the stroke configuration is the same for every
label: dark color `(42,12,12,250)`, width `round(fontSize/24) = 4`, miter
limit `ceil(fontSize/24) = 4`, round caps and joins. -/
theorem label_draw_config_spec :
    ∀ text : String,
      ((∀ c ∈ text.data, c.isDigit) →
        (label_draw_config text).1 = ⟨255, 175, 195, 230⟩) ∧
      ((¬ ∀ c ∈ text.data, c.isDigit) → (∀ c ∈ text.data, c.isAlpha) →
        (label_draw_config text).1 = ⟨150, 175, 255, 230⟩) ∧
      ((¬ ∀ c ∈ text.data, c.isDigit) → (¬ ∀ c ∈ text.data, c.isAlpha) →
        (label_draw_config text).1 = ⟨255, 240, 100, 230⟩) ∧
      (∀ other : String,
        (label_draw_config text).2 = (label_draw_config other).2) ∧
      (label_draw_config text).2.1 = ⟨42, 12, 12, 250⟩ ∧
      (label_draw_config text).2.2.width = round (label_font_size / 24) ∧
      (label_draw_config text).2.2.width = 4 ∧
      (label_draw_config text).2.2.miter_limit = ⌈label_font_size / 24⌉ ∧
      (label_draw_config text).2.2.miter_limit = 4 ∧
      (label_draw_config text).2.2.line_cap = LineCapM.roundCap ∧
      (label_draw_config text).2.2.line_join = LineJoinM.roundJoin ∧
      (fill_color "7" = ⟨255, 175, 195, 230⟩ ∧
        fill_color "B" = ⟨150, 175, 255, 230⟩ ∧
        fill_color "♥" = ⟨255, 240, 100, 230⟩) := by
  intro text
  have hall : ∀ p : Char → Bool, text.data.all p = true ↔ ∀ c ∈ text.data, p c := by
    intro p
    rw [List.all_eq_true]
  have hw : (label_font_size : ℚ) / 24 = 4 := by norm_num [label_font_size]
  refine ⟨?_, ?_, ?_, ?_, ?_, ?_, ?_, ?_, ?_, ?_, ?_, ?_, ?_, ?_⟩
  · intro h
    simp only [label_draw_config, fill_color]
    rw [if_pos ((hall _).mpr h)]
  · intro hd ha
    simp only [label_draw_config, fill_color]
    rw [if_neg (fun hc => hd ((hall _).mp hc)), if_pos ((hall _).mpr ha)]
  · intro hd ha
    simp only [label_draw_config, fill_color]
    rw [if_neg (fun hc => hd ((hall _).mp hc)), if_neg (fun hc => ha ((hall _).mp hc))]
  · intro other
    rfl
  · rfl
  · rfl
  · simp only [label_draw_config, label_stroke, hw]
    norm_num
  · rfl
  · simp only [label_draw_config, label_stroke, hw]
    norm_num
  · rfl
  · rfl
  · decide
  · decide
  · decide

/-- Witness for `label_draw_config_spec`: the label `"B"` is not all digits
but is all alphabetic, hence fills blue. -/
theorem label_draw_config_spec_witness :
    (¬ ∀ c ∈ ("B" : String).data, c.isDigit) ∧
      (∀ c ∈ ("B" : String).data, c.isAlpha) ∧
      (label_draw_config "B").1 = ⟨150, 175, 255, 230⟩ := by
  refine ⟨by decide, by decide, ?_⟩
  exact (label_draw_config_spec "B").2.1 (by decide) (by decide)

/-- C10: the empty string passes the vacuous all-digits test, so an empty
label is classified as a digit label and fills warm pink, not the yellow
symbol fallback. -/
theorem fill_color_empty :
    ("" : String).data.all (fun c => c.isDigit) = true ∧
      fill_color "" = ⟨255, 175, 195, 230⟩ ∧
      fill_color "" ≠ ⟨255, 240, 100, 230⟩ := by
  refine ⟨by decide, by decide, by decide⟩

/-! ## Token canonicalization (draw.rs conv_vert) -/

/-- Model of `conv_vert` from `draw.rs` (lines 272–280): a token sorting
strictly before `"0"` resolves to the spawn label, a token in the half-open
range `[":" , "A")` resolves to the door label, anything else is kept.  The
order is the lexicographic order on `String`, which agrees with Rust
byte-wise `&str` ordering. -/
def conv_vert (v : String) : String :=
  if v < "0" then "↺"
  else if ":" ≤ v ∧ v < "A" then "♥"
  else v

/-- C4: `conv_vert` maps any token strictly below `"0"` to the spawn label
`"↺"`, any token in `[":" , "A")` to the door label `"♥"`, and every other
token to itself; in particular `"-"` resolves to the spawn label, `":"` to
the door label, and `"5"` and `"B"` to themselves. -/
theorem conv_vert_spec :
    ∀ v : String,
      (v < "0" → conv_vert v = "↺") ∧
      (":" ≤ v → v < "A" → conv_vert v = "♥") ∧
      (¬ v < "0" → ¬ (":" ≤ v ∧ v < "A") → conv_vert v = v) ∧
      conv_vert "-" = "↺" ∧ conv_vert ":" = "♥" ∧
      conv_vert "5" = "5" ∧ conv_vert "B" = "B" := by
  have h0colon : ("0" : String) ≤ ":" :=
    String.le_iff_toList_le.mpr (by decide)
  have hdash : ("-" : String) < "0" := String.lt_iff_toList_lt.mpr (by decide)
  have hcolon0 : ¬ (":" : String) < "0" :=
    fun h => absurd (lt_of_le_of_lt h0colon h) (lt_irrefl _)
  have hcolonA : (":" : String) < "A" := String.lt_iff_toList_lt.mpr (by decide)
  have h50 : ¬ ("5" : String) < "0" := by
    intro h
    exact absurd (String.lt_iff_toList_lt.mp h) (by decide)
  have h5colon : ¬ (":" : String) ≤ "5" := by
    intro h
    exact absurd (String.le_iff_toList_le.mp h) (by decide)
  have hB0 : ¬ ("B" : String) < "0" := by
    intro h
    exact absurd (String.lt_iff_toList_lt.mp h) (by decide)
  have hBA : ¬ ("B" : String) < "A" := by
    intro h
    exact absurd (String.lt_iff_toList_lt.mp h) (by decide)
  intro v
  refine ⟨?_, ?_, ?_, ?_, ?_, ?_, ?_⟩
  · intro h
    simp only [conv_vert, if_pos h]
  · intro hlo hhi
    have hnot : ¬ v < "0" := fun h =>
      absurd (lt_of_le_of_lt (le_trans h0colon hlo) h) (lt_irrefl _)
    simp only [conv_vert, if_neg hnot, if_pos (And.intro hlo hhi)]
  · intro h1 h2
    simp only [conv_vert, if_neg h1, if_neg h2]
  · simp only [conv_vert, if_pos hdash]
  · simp only [conv_vert, if_neg hcolon0,
      if_pos (And.intro (le_refl (":" : String)) hcolonA)]
  · simp only [conv_vert, if_neg h50]
    rw [if_neg]
    intro hc
    exact h5colon hc.1
  · simp only [conv_vert, if_neg hB0]
    rw [if_neg]
    intro hc
    exact hBA hc.2

/-- Witness for `conv_vert_spec`: the token `"-"` sorts before `"0"` and
resolves to the spawn label. -/
theorem conv_vert_spec_witness :
    ("-" : String) < "0" ∧ conv_vert "-" = "↺" := by
  have hdash : ("-" : String) < "0" := String.lt_iff_toList_lt.mpr (by decide)
  exact ⟨hdash, (conv_vert_spec "-").1 hdash⟩

/-! ## Path building (tiny_skia PathBuilder) and convert_path (draw.rs) -/

/-- Verb of a built path, mirroring `tiny_skia::PathVerb` together with its
points.  The point type is a parameter so the same builder model serves the
glyph paths (exact rational points) and the arrow paths (real points). -/
inductive Verb (α : Type) where
  | moveTo (p : α)
  | lineTo (p : α)
  | quadTo (p₁ p : α)
  | cubicTo (p₁ p₂ p : α)
  | close
deriving DecidableEq, Repr

/-- Model of `tiny_skia::PathBuilder::move_to` (external dependency): pushes
a MoveTo verb. -/
def pbMoveTo {α : Type} (verbs : List (Verb α)) (p : α) : List (Verb α) :=
  verbs ++ [Verb.moveTo p]

/-- Model of `tiny_skia::PathBuilder::line_to`: on an empty builder a
`MoveTo (0,0)` is injected first. -/
def pbLineTo {α : Type} [Zero α] (verbs : List (Verb α)) (p : α) : List (Verb α) :=
  if verbs.isEmpty then [Verb.moveTo 0, Verb.lineTo p] else verbs ++ [Verb.lineTo p]

/-- Model of `tiny_skia::PathBuilder::quad_to`, with the same injection rule
as `pbLineTo`. -/
def pbQuadTo {α : Type} [Zero α] (verbs : List (Verb α)) (p₁ p : α) : List (Verb α) :=
  if verbs.isEmpty then [Verb.moveTo 0, Verb.quadTo p₁ p] else verbs ++ [Verb.quadTo p₁ p]

/-- Model of `tiny_skia::PathBuilder::cubic_to`, with the same injection rule
as `pbLineTo`. -/
def pbCubicTo {α : Type} [Zero α] (verbs : List (Verb α)) (p₁ p₂ p : α) : List (Verb α) :=
  if verbs.isEmpty then [Verb.moveTo 0, Verb.cubicTo p₁ p₂ p]
  else verbs ++ [Verb.cubicTo p₁ p₂ p]

/-- Model of `tiny_skia::PathBuilder::close`: a no-op on an empty builder. -/
def pbClose {α : Type} (verbs : List (Verb α)) : List (Verb α) :=
  if verbs.isEmpty then verbs else verbs ++ [Verb.close]

/-- Model of `tiny_skia::PathBuilder::finish`: `none` for an empty builder or
a builder holding a single MoveTo (no drawable geometry), otherwise the built
path. -/
def pbFinish {α : Type} (verbs : List (Verb α)) : Option (List (Verb α)) :=
  match verbs with
  | [] => none
  | [Verb.moveTo _] => none
  | _ => some verbs

/-- Outline command, mirroring `swash::zeno::Command`: MoveTo, LineTo,
CurveTo (two control points), QuadTo (one control point), Close.  The `f32`
points are modelled as exact rational pairs. -/
inductive ZCommand where
  | moveTo (p : ℚ × ℚ)
  | lineTo (p : ℚ × ℚ)
  | curveTo (p₁ p₂ p : ℚ × ℚ)
  | quadTo (p₁ p : ℚ × ℚ)
  | close
deriving DecidableEq, Repr

/-- One step of the command loop in `convert_path` (`draw.rs` lines 158–170):
dispatch one outline command to the corresponding builder call. -/
def convert_path_step (b : List (Verb (ℚ × ℚ))) (cmd : ZCommand) : List (Verb (ℚ × ℚ)) :=
  match cmd with
  | ZCommand.moveTo p => pbMoveTo b p
  | ZCommand.lineTo p => pbLineTo b p
  | ZCommand.curveTo p₁ p₂ p => pbCubicTo b p₁ p₂ p
  | ZCommand.quadTo p₁ p => pbQuadTo b p₁ p
  | ZCommand.close => pbClose b

/-- Model of `convert_path` from `draw.rs`: feed every outline command to a
fresh path builder and finish it. -/
def convert_path (cmds : List ZCommand) : Option (List (Verb (ℚ × ℚ))) :=
  pbFinish (cmds.foldl convert_path_step [])

/-- Per-glyph conversion loop of the label-drawing closure in `draw.rs`
`main` (lines 255–269): each glyph outline is converted with `convert_path`
and the result is immediately unwrapped — `unwrap()` on `None` panics, which
is modelled by the whole run returning `none`. -/
def draw_label_glyphs : List (List ZCommand) → Option (List (List (Verb (ℚ × ℚ))))
  | [] => some []
  | o :: rest =>
    match convert_path o with
    | none => none
    | some p => (draw_label_glyphs rest).map (fun ps => p :: ps)

/-- A glyph outline with actual geometry, used as a concrete companion of
the empty whitespace outline. -/
def sample_triangle_outline : List ZCommand :=
  [ZCommand.moveTo (0, 0), ZCommand.lineTo (1, 0), ZCommand.lineTo (0, 1),
    ZCommand.close]

/-- C1 counterexample: `convert_path` does return `none` on the outline of a
whitespace glyph (no commands), but the compositing closure does not skip
such a glyph — it calls `unwrap()` on the `none` and panics, aborting the
whole run instead of continuing with the remaining glyphs.  Concretely, a
label whose glyph outlines are the empty outline followed by a triangle
renders nothing (`none`), whereas the claimed skipping behavior would render
exactly what the triangle alone renders. -/
theorem convert_path_skip_cex :
    convert_path [] = none ∧
      draw_label_glyphs [[], sample_triangle_outline] = none ∧
      draw_label_glyphs [sample_triangle_outline] =
        some [[Verb.moveTo (0, 0), Verb.lineTo (1, 0), Verb.lineTo (0, 1),
          Verb.close]] ∧
      draw_label_glyphs [[], sample_triangle_outline] ≠
        draw_label_glyphs [sample_triangle_outline] := by
  refine ⟨by decide, by decide, by decide, by decide⟩

/-- C1 as amended: `convert_path` returns `none` (not an error) for an
outline with no drawable geometry — an empty command list, or a lone MoveTo —
but the compositing caller unwraps that `none` and aborts (panics): whenever
any glyph outline of the label is empty, the whole glyph loop yields `none`
rather than skipping the glyph. -/
theorem convert_path_empty_aborts :
    convert_path [] = none ∧
      (∀ p : ℚ × ℚ, convert_path [ZCommand.moveTo p] = none) ∧
      (∀ outlines : List (List ZCommand), [] ∈ outlines →
        draw_label_glyphs outlines = none) := by
  refine ⟨by decide, ?_, ?_⟩
  · intro p
    rfl
  · intro outlines hmem
    induction outlines with
    | nil => cases hmem
    | cons o rest ih =>
      rcases List.mem_cons.mp hmem with ho | ho
      · subst ho
        simp [draw_label_glyphs, convert_path, pbFinish]
      · have hrest : draw_label_glyphs rest = none := ih ho
        cases hcp : convert_path o with
        | none => simp [draw_label_glyphs, hcp]
        | some p => simp [draw_label_glyphs, hcp, hrest]

/-- Witness for `convert_path_empty_aborts`: the empty outline is among the
glyph outlines `[[], triangle]`, and the run aborts. -/
theorem convert_path_empty_aborts_witness :
    ([] : List ZCommand) ∈ [[], sample_triangle_outline] ∧
      draw_label_glyphs [[], sample_triangle_outline] = none := by
  refine ⟨by decide, ?_⟩
  exact convert_path_empty_aborts.2.2 [[], sample_triangle_outline] (by decide)

/-! ## Level data model and anchor extraction (lib.rs) -/

/-- Projection of `celesteloader::map::Entity` onto the fields the extractor
reads: the entity kind name, the optional integer id, and the room-local
position (an `f32` pair, modelled exactly). -/
structure Entity where
  name : String
  id : Option ℤ
  position : ℚ × ℚ
deriving DecidableEq, Repr

/-- Projection of `celesteloader::map::Trigger` onto the same fields
(triggers carry chapter-panel anchors). -/
structure Trigger where
  name : String
  id : Option ℤ
  position : ℚ × ℚ
deriving DecidableEq, Repr

/-- Projection of `celesteloader::map::Room`: its name and its entity and
trigger lists in their stored order. -/
structure Room where
  name : String
  entities : List Entity
  triggers : List Trigger
deriving DecidableEq, Repr

/-- Projection of `celesteloader::map::Map`: the room list in traversal
order. -/
structure Map where
  rooms : List Room
deriving DecidableEq, Repr

/-- Total comparison on a linear order, standing for `i32::cmp`,
`str::cmp` and `f32::total_cmp` (the latter restricted to actual numbers,
which is the image of the `ℚ` model). -/
def ocmp {β : Type} [LinearOrder β] (a b : β) : Ordering :=
  if a < b then Ordering.lt else if a = b then Ordering.eq else Ordering.gt

/-- Squared euclidean distance of a room-local position from the origin,
`p.0 * p.0 + p.1 * p.1` as in the sort keys of `warps` and `chapters`. -/
def sqd (p : ℚ × ℚ) : ℚ := p.1 * p.1 + p.2 * p.2

/-- Comparator chaining of `lib.rs` (`i32::cmp(..).then(f32::total_cmp(..))
.then(str::cmp(..))`) over an abstract key extraction.  The `Option ℤ` id is
read with `getD 0`: the source calls `.unwrap()`, which panics when the id is
absent; every theorem below assumes all ids are present, where the two
agree. -/
def key_cmp {α : Type} (key : α → ℤ × ℚ × String) (a b : α) : Ordering :=
  (ocmp (key a).1 (key b).1).then
    ((ocmp (key a).2.1 (key b).2.1).then (ocmp (key a).2.2 (key b).2.2))

/-- Sort key of one warp anchor: its id, the squared distance of its position
from the room-local origin, and the owning room name. -/
def warp_key (a : Entity × Room) : ℤ × ℚ × String :=
  (a.1.id.getD 0, sqd a.1.position, a.2.name)

/-- Sort key of one chapter anchor. -/
def chapter_key (a : Trigger × Room) : ℤ × ℚ × String :=
  (a.1.id.getD 0, sqd a.1.position, a.2.name)

/-- The triple key viewed in the lexicographic order (component 1, then 2,
then 3). -/
def lex3 (x : ℤ × ℚ × String) : ℤ ×ₗ ℚ ×ₗ String := toLex (x.1, toLex (x.2.1, x.2.2))

/-- Warp anchors gathered by `warps` (`lib.rs` lines 14–25) before sorting:
every entity named `CollabUtils2/LobbyMapWarp`, paired with its owning room,
in room-then-entity order. -/
def warps_raw (mp : Map) : List (Entity × Room) :=
  mp.rooms.flatMap (fun r =>
    (r.entities.filter (fun t => t.name == "CollabUtils2/LobbyMapWarp")).map
      (fun t => (t, r)))

/-- Model of `warps` (`lib.rs` lines 14–35): gather then sort ascending by
the comparator (Rust `sort_by` is an ascending stable sort; `mergeSort` with
`le = (cmp ≠ gt)` realizes the same order). -/
def warps (mp : Map) : List (Entity × Room) :=
  (warps_raw mp).mergeSort (fun a b => key_cmp warp_key a b != Ordering.gt)

/-- Chapter anchors gathered by `chapters` (`lib.rs` lines 37–48) before
sorting: every trigger named `CollabUtils2/ChapterPanelTrigger` with its
owning room. -/
def chapters_raw (mp : Map) : List (Trigger × Room) :=
  mp.rooms.flatMap (fun r =>
    (r.triggers.filter (fun t => t.name == "CollabUtils2/ChapterPanelTrigger")).map
      (fun t => (t, r)))

/-- Model of `chapters` (`lib.rs` lines 37–58). -/
def chapters (mp : Map) : List (Trigger × Room) :=
  (chapters_raw mp).mergeSort (fun a b => key_cmp chapter_key a b != Ordering.gt)

theorem ocmp_eq_lt {β : Type} [LinearOrder β] {a b : β} :
    ocmp a b = Ordering.lt ↔ a < b := by
  unfold ocmp
  split_ifs with h1 h2 <;> simp_all

theorem ocmp_eq_eq {β : Type} [LinearOrder β] {a b : β} :
    ocmp a b = Ordering.eq ↔ a = b := by
  unfold ocmp
  split_ifs with h1 h2 <;> simp_all
  exact ne_of_lt h1

theorem ocmp_eq_gt {β : Type} [LinearOrder β] {a b : β} :
    ocmp a b = Ordering.gt ↔ b < a := by
  unfold ocmp
  split_ifs with h1 h2
  · constructor
    · intro h
      exact absurd h (by decide)
    · intro h
      exact absurd (lt_trans h h1) (lt_irrefl b)
  · constructor
    · intro h
      exact absurd h (by decide)
    · intro h
      rw [h2] at h
      exact absurd h (lt_irrefl b)
  · constructor
    · intro _
      rcases lt_trichotomy a b with h | h | h
      · exact absurd h h1
      · exact absurd h h2
      · exact h
    · intro _
      rfl

theorem lex3_lt_iff (x y : ℤ × ℚ × String) :
    lex3 x < lex3 y ↔
      x.1 < y.1 ∨ (x.1 = y.1 ∧ (x.2.1 < y.2.1 ∨ (x.2.1 = y.2.1 ∧ x.2.2 < y.2.2))) := by
  unfold lex3
  rw [Prod.Lex.lt_iff]
  constructor
  · rintro (h | ⟨h1, h2⟩)
    · exact Or.inl h
    · exact Or.inr ⟨h1, (Prod.Lex.lt_iff _ _).mp h2⟩
  · rintro (h | ⟨h1, h2⟩)
    · exact Or.inl h
    · exact Or.inr ⟨h1, (Prod.Lex.lt_iff _ _).mpr h2⟩

theorem key_cmp_eq_gt {α : Type} (key : α → ℤ × ℚ × String) (a b : α) :
    key_cmp key a b = Ordering.gt ↔ lex3 (key b) < lex3 (key a) := by
  unfold key_cmp
  rw [Ordering.then_eq_gt, Ordering.then_eq_gt, lex3_lt_iff,
    ocmp_eq_gt, ocmp_eq_eq, ocmp_eq_gt, ocmp_eq_eq, ocmp_eq_gt]
  constructor
  · rintro (h | ⟨h1, h | ⟨h2, h3⟩⟩)
    · exact Or.inl h
    · exact Or.inr ⟨h1.symm, Or.inl h⟩
    · exact Or.inr ⟨h1.symm, Or.inr ⟨h2.symm, h3⟩⟩
  · rintro (h | ⟨h1, h | ⟨h2, h3⟩⟩)
    · exact Or.inl h
    · exact Or.inr ⟨h1.symm, Or.inl h⟩
    · exact Or.inr ⟨h1.symm, Or.inr ⟨h2.symm, h3⟩⟩

theorem key_le_iff {α : Type} (key : α → ℤ × ℚ × String) (a b : α) :
    (key_cmp key a b != Ordering.gt) = true ↔ lex3 (key a) ≤ lex3 (key b) := by
  have hgt := key_cmp_eq_gt key a b
  constructor
  · intro h
    refine not_lt.mp (fun hlt => ?_)
    rw [hgt.mpr hlt] at h
    exact absurd h (by decide)
  · intro h
    have hne : key_cmp key a b ≠ Ordering.gt := fun hk =>
      absurd (hgt.mp hk) (not_lt.mpr h)
    cases hc : key_cmp key a b
    · decide
    · decide
    · exact absurd hc hne

/-- Sorting lemma shared by `warps` and `chapters`: the merge sort under the
comparator is a permutation of the input, pairwise nondecreasing in the
lexicographic key order. -/
theorem mergeSort_key_spec {α : Type} (key : α → ℤ × ℚ × String) (l : List α) :
    (l.mergeSort (fun a b => key_cmp key a b != Ordering.gt)).Perm l ∧
      (l.mergeSort (fun a b => key_cmp key a b != Ordering.gt)).Pairwise
        (fun a b => lex3 (key a) ≤ lex3 (key b)) := by
  refine ⟨List.mergeSort_perm l _, ?_⟩
  have hs := @List.sorted_mergeSort α
    (fun a b => key_cmp key a b != Ordering.gt)
    (fun a b c hab hbc =>
      (key_le_iff key a c).mpr (le_trans ((key_le_iff key a b).mp hab)
        ((key_le_iff key b c).mp hbc)))
    (fun a b => by
      rcases le_total (lex3 (key a)) (lex3 (key b)) with h | h
      · simp [(key_le_iff key a b).mpr h]
      · simp [(key_le_iff key b a).mpr h])
    l
  exact hs.imp (fun h => (key_le_iff key _ _).mp h)

theorem lex3_inj {x y : ℤ × ℚ × String} (h : lex3 x = lex3 y) : x = y := by
  unfold lex3 at h
  have h1 := congrArg (fun z => (ofLex z).1) h
  have h2 := congrArg (fun z => (ofLex (ofLex z).2).1) h
  have h3 := congrArg (fun z => (ofLex (ofLex z).2).2) h
  simp only at h1 h2 h3
  exact Prod.ext h1 (Prod.ext h2 h3)

/-- C2: for a level all of whose warp (resp. chapter) anchors carry an id,
`warps` (resp. `chapters`) returns exactly the gathered anchors of that kind
(a permutation of them), in ascending order of the lexicographic key
(identifier, squared distance of the room-local position from the origin,
owning room name); the key order is spelled out component by component, and
two anchors compare equal only when all three key components coincide, so
the produced order is one fixed total order on keys. -/
theorem warps_chapters_sorted :
    ∀ mp : Map,
      ((∀ p ∈ warps_raw mp, p.1.id.isSome) →
        (warps mp).Perm (warps_raw mp) ∧
          (warps mp).Pairwise (fun a b => lex3 (warp_key a) ≤ lex3 (warp_key b))) ∧
      ((∀ p ∈ chapters_raw mp, p.1.id.isSome) →
        (chapters mp).Perm (chapters_raw mp) ∧
          (chapters mp).Pairwise
            (fun a b => lex3 (chapter_key a) ≤ lex3 (chapter_key b))) ∧
      (∀ a b : Entity × Room,
        lex3 (warp_key a) < lex3 (warp_key b) ↔
          (a.1.id.getD 0 < b.1.id.getD 0 ∨
            (a.1.id.getD 0 = b.1.id.getD 0 ∧
              (sqd a.1.position < sqd b.1.position ∨
                (sqd a.1.position = sqd b.1.position ∧ a.2.name < b.2.name))))) ∧
      (∀ a b : Entity × Room,
        lex3 (warp_key a) ≤ lex3 (warp_key b) ↔
          (lex3 (warp_key a) < lex3 (warp_key b) ∨ warp_key a = warp_key b)) := by
  intro mp
  refine ⟨fun _ => mergeSort_key_spec warp_key (warps_raw mp),
    fun _ => mergeSort_key_spec chapter_key (chapters_raw mp), ?_, ?_⟩
  · intro a b
    exact lex3_lt_iff (warp_key a) (warp_key b)
  · intro a b
    rw [le_iff_lt_or_eq]
    constructor
    · rintro (h | h)
      · exact Or.inl h
      · exact Or.inr (lex3_inj h)
    · rintro (h | h)
      · exact Or.inl h
      · exact Or.inr (congrArg lex3 h)

/-- A small concrete level: two rooms, two warp anchors with ids out of
gather order, one chapter anchor. -/
def sample_map : Map :=
  { rooms :=
      [ { name := "b"
          entities :=
            [ { name := "CollabUtils2/LobbyMapWarp", id := some 2, position := (1, 0) },
              { name := "player", id := none, position := (0, 0) } ]
          triggers :=
            [ { name := "CollabUtils2/ChapterPanelTrigger", id := some 1,
                position := (2, 0) } ] },
        { name := "a"
          entities :=
            [ { name := "CollabUtils2/LobbyMapWarp", id := some 1, position := (3, 4) } ]
          triggers := [] } ] }

/-- Witness for `warps_chapters_sorted`: on `sample_map` every warp anchor
carries an id, and the sorted output is a permutation of the gathered warps
in ascending key order. -/
theorem warps_chapters_sorted_witness :
    (∀ p ∈ warps_raw sample_map, p.1.id.isSome) ∧
      ((warps sample_map).Perm (warps_raw sample_map) ∧
        (warps sample_map).Pairwise
          (fun a b => lex3 (warp_key a) ≤ lex3 (warp_key b))) :=
  ⟨by decide, (warps_chapters_sorted sample_map).1 (by decide)⟩

/-! ## Label allocation (walk.rs main, lines 43–61) -/

/-- Decimal digit character, value `48 + d` (i.e. the character '0' + d). -/
def dChar (d : ℕ) : Char := Char.ofNat (48 + d)

/-- Latin capital letter, value `65 + d` (i.e. the character 'A' + d). -/
def aChar (d : ℕ) : Char := Char.ofNat (65 + d)

/-- Little-endian decimal digit list of a natural number (empty for 0):
the digits produced by Rust `format!` read in reverse. -/
def decDigits (n : ℕ) : List Char :=
  if h : n = 0 then [] else dChar (n % 10) :: decDigits (n / 10)
decreasing_by exact Nat.div_lt_self (Nat.pos_of_ne_zero h) (by norm_num)

/-- Decimal rendering of a natural number, as produced by Rust
`format!("{}", n)`. -/
def decStr (n : ℕ) : String := if n = 0 then "0" else String.mk (decDigits n).reverse

/-- Modelled from the spec: the word sequence of the external `alphabet`
crate (`alphabet!(pub ENGLISH = "ABCDEFGHIJKLMNOPQRSTUVWXYZ")`, used in
`walk.rs` as `ENGLISH.iter_words()`) is not part of this repository; per the
spec the fixed alphabet is `A..Z` with word index 0 being the first letter
`"A"`, index 25 `"Z"`, index 26 `"AA"`, and so on (shortlex order).  Here
`alphaDigits m` is the little-endian bijective base-26 digit list of `m`,
so that word `n` is `alphaDigits (n+1)` reversed. -/
def alphaDigits (m : ℕ) : List Char :=
  if h : m = 0 then [] else aChar ((m - 1) % 26) :: alphaDigits ((m - 1) / 26)
decreasing_by exact Nat.lt_of_le_of_lt (Nat.div_le_self _ _) (Nat.pred_lt h)

/-- Modelled from the spec: the word at index `n` of the fixed alphabet
`A..Z` in shortlex order (`"A"`, …, `"Z"`, `"AA"`, …). -/
def alphaWord (n : ℕ) : String := String.mk (alphaDigits (n + 1)).reverse

/-- The reserved spawn label inserted by `walk.rs` `main`. -/
def spawn_label : String := "↺"

/-- The reserved door label inserted by `walk.rs` `main` when a
`CollabUtils2/MiniHeartDoor` entity exists. -/
def door_label : String := "♥"

/-- Label of the i-th chapter anchor (`walk.rs` line 50:
`format!("{}", i + 1)`). -/
def chapter_label (i : ℕ) : String := decStr (i + 1)

/-- Label of the i-th warp anchor (`walk.rs` line 55:
`ENGLISH.iter_words().nth(i + 1).unwrap()`). -/
def warp_label (i : ℕ) : String := alphaWord (i + 1)

/-- The full key sequence inserted into the NodeMap by `walk.rs` `main`
(lines 43–61): the spawn label, one decimal label per chapter anchor in
extraction order, one alphabet word per warp anchor in extraction order, and
the door label when a mini-heart door is present. -/
def walk_labels (nch nw : ℕ) (hasDoor : Bool) : List String :=
  spawn_label ::
    ((List.range nch).map chapter_label ++ (List.range nw).map warp_label ++
      (if hasDoor then [door_label] else []))

/-- Value of a little-endian decimal digit list. -/
def decVal : List Char → ℕ
  | [] => 0
  | c :: cs => (c.toNat - 48) + 10 * decVal cs

/-- Value of a little-endian bijective base-26 digit list. -/
def alphaVal : List Char → ℕ
  | [] => 0
  | c :: cs => (c.toNat - 64) + 26 * alphaVal cs

theorem dChar_toNat {d : ℕ} (h : d < 10) : (dChar d).toNat = 48 + d := by
  interval_cases d <;> decide

theorem aChar_toNat {d : ℕ} (h : d < 26) : (aChar d).toNat = 65 + d := by
  interval_cases d <;> decide

theorem decVal_decDigits (n : ℕ) : decVal (decDigits n) = n := by
  induction n using Nat.strong_induction_on with
  | _ n ih =>
    by_cases h : n = 0
    · subst h
      simp [decDigits, decVal]
    · have hrec := ih (n / 10) (Nat.div_lt_self (Nat.pos_of_ne_zero h) (by norm_num))
      rw [decDigits]
      rw [dif_neg h]
      simp only [decVal]
      rw [hrec, dChar_toNat (Nat.mod_lt n (by norm_num))]
      omega

theorem alphaVal_alphaDigits (m : ℕ) : alphaVal (alphaDigits m) = m := by
  induction m using Nat.strong_induction_on with
  | _ m ih =>
    by_cases h : m = 0
    · subst h
      simp [alphaDigits, alphaVal]
    · have hrec := ih ((m - 1) / 26)
        (Nat.lt_of_le_of_lt (Nat.div_le_self _ _) (Nat.pred_lt h))
      rw [alphaDigits]
      rw [dif_neg h]
      simp only [alphaVal]
      rw [hrec, aChar_toNat (Nat.mod_lt (m - 1) (by norm_num))]
      omega

theorem decDigits_range (n : ℕ) :
    ∀ c ∈ decDigits n, 48 ≤ c.toNat ∧ c.toNat ≤ 57 := by
  induction n using Nat.strong_induction_on with
  | _ n ih =>
    by_cases h : n = 0
    · subst h
      simp [decDigits]
    · rw [decDigits, dif_neg h]
      intro c hc
      rcases List.mem_cons.mp hc with hc | hc
      · subst hc
        rw [dChar_toNat (Nat.mod_lt n (by norm_num))]
        omega
      · exact ih (n / 10) (Nat.div_lt_self (Nat.pos_of_ne_zero h) (by norm_num)) c hc

theorem alphaDigits_range (m : ℕ) :
    ∀ c ∈ alphaDigits m, 65 ≤ c.toNat ∧ c.toNat ≤ 90 := by
  induction m using Nat.strong_induction_on with
  | _ m ih =>
    by_cases h : m = 0
    · subst h
      simp [alphaDigits]
    · rw [alphaDigits, dif_neg h]
      intro c hc
      rcases List.mem_cons.mp hc with hc | hc
      · subst hc
        rw [aChar_toNat (Nat.mod_lt (m - 1) (by norm_num))]
        omega
      · exact ih ((m - 1) / 26)
          (Nat.lt_of_le_of_lt (Nat.div_le_self _ _) (Nat.pred_lt h)) c hc

theorem decDigits_ne_nil {n : ℕ} (h : n ≠ 0) : decDigits n ≠ [] := by
  rw [decDigits, dif_neg h]
  exact List.cons_ne_nil _ _

theorem alphaDigits_ne_nil {m : ℕ} (h : m ≠ 0) : alphaDigits m ≠ [] := by
  rw [alphaDigits, dif_neg h]
  exact List.cons_ne_nil _ _

theorem chapter_label_inj : Function.Injective chapter_label := by
  intro i j h
  unfold chapter_label decStr at h
  rw [if_neg (Nat.succ_ne_zero i), if_neg (Nat.succ_ne_zero j)] at h
  have hdata := String.ext_iff.mp h
  have hlist : decDigits (i + 1) = decDigits (j + 1) :=
    List.reverse_injective hdata
  have := congrArg decVal hlist
  rw [decVal_decDigits, decVal_decDigits] at this
  omega

theorem warp_label_inj : Function.Injective warp_label := by
  intro i j h
  unfold warp_label alphaWord at h
  have hdata := String.ext_iff.mp h
  have hlist : alphaDigits (i + 1 + 1) = alphaDigits (j + 1 + 1) :=
    List.reverse_injective hdata
  have := congrArg alphaVal hlist
  rw [alphaVal_alphaDigits, alphaVal_alphaDigits] at this
  omega

theorem chapter_ne_warp (i j : ℕ) : chapter_label i ≠ warp_label j := by
  intro h
  unfold chapter_label decStr warp_label alphaWord at h
  rw [if_neg (Nat.succ_ne_zero i)] at h
  have hdata := String.ext_iff.mp h
  have hlist : decDigits (i + 1) = alphaDigits (j + 1 + 1) :=
    List.reverse_injective hdata
  cases hl : decDigits (i + 1) with
  | nil => exact decDigits_ne_nil (Nat.succ_ne_zero i) hl
  | cons c cs =>
    have hd : c ∈ decDigits (i + 1) := by
      rw [hl]
      exact List.mem_cons_self c cs
    have ha : c ∈ alphaDigits (j + 1 + 1) := by
      rw [← hlist, hl]
      exact List.mem_cons_self c cs
    have h1 := decDigits_range (i + 1) c hd
    have h2 := alphaDigits_range (j + 1 + 1) c ha
    omega

theorem spawn_ne_chapter (i : ℕ) : spawn_label ≠ chapter_label i := by
  intro h
  unfold spawn_label chapter_label decStr at h
  rw [if_neg (Nat.succ_ne_zero i)] at h
  have hdata := String.ext_iff.mp h
  have hl : ['↺'] = (decDigits (i + 1)).reverse := hdata
  have hmem : ('↺' : Char) ∈ decDigits (i + 1) := by
    rw [← List.mem_reverse, ← hl]
    decide
  have := decDigits_range (i + 1) _ hmem
  have hv : ('↺' : Char).toNat = 8634 := by decide
  omega

theorem spawn_ne_warp (j : ℕ) : spawn_label ≠ warp_label j := by
  intro h
  unfold spawn_label warp_label alphaWord at h
  have hdata := String.ext_iff.mp h
  have hl : ['↺'] = (alphaDigits (j + 1 + 1)).reverse := hdata
  have hmem : ('↺' : Char) ∈ alphaDigits (j + 1 + 1) := by
    rw [← List.mem_reverse, ← hl]
    decide
  have := alphaDigits_range (j + 1 + 1) _ hmem
  have hv : ('↺' : Char).toNat = 8634 := by decide
  omega

theorem door_ne_chapter (i : ℕ) : door_label ≠ chapter_label i := by
  intro h
  unfold door_label chapter_label decStr at h
  rw [if_neg (Nat.succ_ne_zero i)] at h
  have hdata := String.ext_iff.mp h
  have hl : ['♥'] = (decDigits (i + 1)).reverse := hdata
  have hmem : ('♥' : Char) ∈ decDigits (i + 1) := by
    rw [← List.mem_reverse, ← hl]
    decide
  have := decDigits_range (i + 1) _ hmem
  have hv : ('♥' : Char).toNat = 9829 := by decide
  omega

theorem door_ne_warp (j : ℕ) : door_label ≠ warp_label j := by
  intro h
  unfold door_label warp_label alphaWord at h
  have hdata := String.ext_iff.mp h
  have hl : ['♥'] = (alphaDigits (j + 1 + 1)).reverse := hdata
  have hmem : ('♥' : Char) ∈ alphaDigits (j + 1 + 1) := by
    rw [← List.mem_reverse, ← hl]
    decide
  have := alphaDigits_range (j + 1 + 1) _ hmem
  have hv : ('♥' : Char).toNat = 9829 := by decide
  omega

/-- C3: the i-th chapter anchor is labeled with the decimal string of `i+1`
(so chapter labels are "1", "2", … in extraction order: the label is all
decimal digits and reads back as `i+1`), and the i-th warp anchor is labeled
with the word at index `i+1` of the fixed alphabet `A..Z` — index 0, the
word `"A"`, is skipped, so the first warp receives the second word `"B"`.
Pinned instances include the two-digit chapter label "12" and the wrap
around of the alphabet at `"Z"`/`"AA"`. -/
theorem walk_label_assignment :
    ∀ i : ℕ,
      chapter_label i = decStr (i + 1) ∧
      decVal (chapter_label i).data.reverse = i + 1 ∧
      (∀ c ∈ (chapter_label i).data, 48 ≤ c.toNat ∧ c.toNat ≤ 57) ∧
      warp_label i = alphaWord (i + 1) ∧
      alphaWord 0 = "A" ∧
      warp_label 0 = "B" ∧
      (chapter_label 0 = "1" ∧ chapter_label 1 = "2" ∧ chapter_label 11 = "12") ∧
      (warp_label 1 = "C" ∧ warp_label 24 = "Z" ∧ warp_label 25 = "AA") := by
  intro i
  refine ⟨rfl, ?_, ?_, rfl, ?_, ?_, ⟨?_, ?_, ?_⟩, ?_, ?_, ?_⟩
  · rw [chapter_label, decStr, if_neg (Nat.succ_ne_zero i)]
    show decVal (decDigits (i + 1)).reverse.reverse = i + 1
    rw [List.reverse_reverse]
    exact decVal_decDigits _
  · intro c hc
    rw [chapter_label, decStr, if_neg (Nat.succ_ne_zero i)] at hc
    exact decDigits_range (i + 1) c (List.mem_reverse.mp hc)
  · simp [alphaWord, alphaDigits, aChar]
  · simp [warp_label, alphaWord, alphaDigits, aChar]
  · simp [chapter_label, decStr, decDigits, dChar]
  · simp [chapter_label, decStr, decDigits, dChar]
  · simp [chapter_label, decStr, decDigits, dChar]
  · simp [warp_label, alphaWord, alphaDigits, aChar]
  · simp [warp_label, alphaWord, alphaDigits, aChar]
  · simp [warp_label, alphaWord, alphaDigits, aChar]

/-- C9: every extracted NodeMap has pairwise distinct labels: for any number
of chapters and warps and door presence, the key sequence inserted by
`walk.rs` `main` — spawn symbol, decimal chapter labels, alphabet warp
labels, door symbol — has no duplicates: labels are unique within each
namespace and the namespaces are pairwise disjoint. -/
theorem walk_labels_nodup :
    ∀ (nch nw : ℕ) (hasDoor : Bool), (walk_labels nch nw hasDoor).Nodup := by
  intro nch nw hasDoor
  unfold walk_labels
  refine List.nodup_cons.mpr ⟨?_, ?_⟩
  · intro hmem
    rcases List.mem_append.mp hmem with h | h
    · rcases List.mem_append.mp h with h | h
      · rcases List.mem_map.mp h with ⟨i, _, hi⟩
        exact spawn_ne_chapter i hi.symm
      · rcases List.mem_map.mp h with ⟨j, _, hj⟩
        exact spawn_ne_warp j hj.symm
    · cases hasDoor with
      | true =>
        simp only [if_pos] at h
        rw [List.mem_singleton] at h
        exact absurd h (by decide)
      | false => simp at h
  · rw [List.nodup_append, List.nodup_append]
    refine ⟨⟨(List.nodup_range nch).map chapter_label_inj,
      (List.nodup_range nw).map warp_label_inj, ?_⟩, ?_, ?_⟩
    · intro a ha hb
      rcases List.mem_map.mp ha with ⟨i, _, hi⟩
      rcases List.mem_map.mp hb with ⟨j, _, hj⟩
      rw [← hi] at hj
      exact chapter_ne_warp i j hj.symm
    · cases hasDoor <;> simp
    · intro a ha hb
      have hdoor : a = door_label := by
        cases hasDoor with
        | true =>
          simp only [if_pos] at hb
          exact List.mem_singleton.mp hb
        | false => simp at hb
      subst hdoor
      rcases List.mem_append.mp ha with h | h
      · rcases List.mem_map.mp h with ⟨i, _, hi⟩
        exact door_ne_chapter i hi.symm
      · rcases List.mem_map.mp h with ⟨j, _, hj⟩
        exact door_ne_warp j hj.symm

/-! ## NodeMap persistence (walk.rs serialization, draw.rs deserialization) -/

/-- JSON value tree, the shape exchanged through `serde_json` between
`walk.rs` (`serde_json::to_string(&nodes)`) and `draw.rs`
(`serde_json::from_str` into `BTreeMap<&str, [f32; 2]>`).  Numbers are exact
rationals: `serde_json` prints an `f32` as its shortest decimal that parses
back to the same `f32`, so at identical floating precision the number layer
is lossless and is modelled exactly. -/
inductive Json where
  | num (v : ℚ)
  | str (s : String)
  | arr (elems : List Json)
  | obj (fields : List (String × Json))

/-- A NodeMap in the iteration order of `BTreeMap<String, (f32, f32)>`:
keys strictly ascending in the lexicographic order on code points (Rust
`String` order is byte-wise lexicographic on UTF-8, which agrees with it). -/
def node_map_sorted (m : List (String × (ℚ × ℚ))) : Prop :=
  m.Pairwise (fun a b => a.1.data < b.1.data)

/-- Serialization of a NodeMap (`walk.rs` line 62): an object whose fields
are the map entries in iteration order, each value the two-element array
`[x, y]`. -/
def encode_node_map (m : List (String × (ℚ × ℚ))) : Json :=
  Json.obj (m.map (fun p => (p.1, Json.arr [Json.num p.2.1, Json.num p.2.2])))

/-- Deserialization of one object field into a NodeMap entry: accepts
exactly a two-element numeric array, as `[f32; 2]` does. -/
def decode_pair : String × Json → Option (String × (ℚ × ℚ))
  | (k, Json.arr [Json.num x, Json.num y]) => some (k, (x, y))
  | _ => none

/-- Deserialization of all object fields, failing on the first malformed
value. -/
def decode_pairs : List (String × Json) → Option (List (String × (ℚ × ℚ)))
  | [] => some []
  | p :: rest =>
    match decode_pair p with
    | none => none
    | some q => (decode_pairs rest).map (fun l => q :: l)

/-- Ordered insertion with replacement, the `BTreeMap` insertion the serde
deserializer performs for each incoming field. -/
def insert_sorted (k : String) (v : ℚ × ℚ) :
    List (String × (ℚ × ℚ)) → List (String × (ℚ × ℚ))
  | [] => [(k, v)]
  | (k2, v2) :: rest =>
    if k.data < k2.data then (k, v) :: (k2, v2) :: rest
    else if k.data = k2.data then (k, v) :: rest
    else (k2, v2) :: insert_sorted k v rest

/-- Deserialization of a NodeMap from a JSON value (`draw.rs` line 222):
only an object is accepted; its fields, in text order, are inserted into a
fresh ordered map. -/
def decode_node_map : Json → Option (List (String × (ℚ × ℚ)))
  | Json.obj fields =>
    (decode_pairs fields).map
      (fun l => l.foldl (fun acc q => insert_sorted q.1 q.2 acc) [])
  | _ => none

theorem decode_pairs_encode (m : List (String × (ℚ × ℚ))) :
    decode_pairs (m.map (fun p => (p.1, Json.arr [Json.num p.2.1, Json.num p.2.2]))) =
      some m := by
  induction m with
  | nil => rfl
  | cons p rest ih =>
    simp only [List.map_cons, decode_pairs, decode_pair, ih, Option.map_some]
    rfl

theorem insert_sorted_append {k : String} {v : ℚ × ℚ}
    {acc : List (String × (ℚ × ℚ))} (h : ∀ a ∈ acc, a.1.data < k.data) :
    insert_sorted k v acc = acc ++ [(k, v)] := by
  induction acc with
  | nil => rfl
  | cons p rest ih =>
    obtain ⟨k2, v2⟩ := p
    have hp : k2.data < k.data := h (k2, v2) (List.mem_cons_self _ rest)
    have h1 : ¬ k.data < k2.data := fun hc => absurd (lt_trans hp hc) (lt_irrefl _)
    have h2 : ¬ k.data = k2.data := fun hc => absurd (hc ▸ hp) (lt_irrefl _)
    have ihr := ih (fun a ha => h a (List.mem_cons_of_mem _ ha))
    simp only [insert_sorted, if_neg h1, if_neg h2, ihr, List.cons_append]

theorem foldl_insert_sorted (m : List (String × (ℚ × ℚ))) :
    ∀ acc : List (String × (ℚ × ℚ)),
      acc.Pairwise (fun a b => a.1.data < b.1.data) →
      (∀ a ∈ acc, ∀ b ∈ m, a.1.data < b.1.data) →
      m.Pairwise (fun a b => a.1.data < b.1.data) →
      m.foldl (fun acc q => insert_sorted q.1 q.2 acc) acc = acc ++ m := by
  induction m with
  | nil =>
    intro acc _ _ _
    simp
  | cons q rest ih =>
    intro acc hacc hcross hm
    rw [List.foldl_cons]
    have hq : ∀ a ∈ acc, a.1.data < q.1.data := fun a ha =>
      hcross a ha q (List.mem_cons_self q rest)
    rw [insert_sorted_append hq]
    have hm2 := List.pairwise_cons.mp hm
    have happ : (acc ++ [q]).Pairwise (fun a b => a.1.data < b.1.data) := by
      refine List.pairwise_append.mpr ⟨hacc, List.pairwise_singleton _ q, ?_⟩
      intro a ha b hb
      rw [List.mem_singleton.mp hb]
      exact hq a ha
    have hcross2 : ∀ a ∈ acc ++ [q], ∀ b ∈ rest, a.1.data < b.1.data := by
      intro a ha b hb
      rcases List.mem_append.mp ha with h | h
      · exact hcross a h b (List.mem_cons_of_mem _ hb)
      · rw [List.mem_singleton.mp h]
        exact hm2.1 b hb
    rw [ih (acc ++ [q]) happ hcross2 hm2.2, List.append_assoc]
    rfl

/-- C5: serializing any NodeMap (strictly-sorted unique string labels mapped
to coordinate pairs) to the canonical form — an object with the labels as
keys in sorted order and two-element numeric arrays as values — and
deserializing it back yields exactly the original mapping: the same keys and
the same coordinates for every key (coordinates are modelled exactly, which
is what identical floating precision gives). -/
theorem node_map_round_trip :
    ∀ m : List (String × (ℚ × ℚ)),
      node_map_sorted m →
      decode_node_map (encode_node_map m) = some m ∧
      (m.map Prod.fst).Pairwise (fun a b => a.data < b.data) := by
  intro m hm
  constructor
  · show (decode_pairs _).map _ = some m
    rw [decode_pairs_encode]
    show some (m.foldl (fun acc q => insert_sorted q.1 q.2 acc) []) = some m
    rw [foldl_insert_sorted m [] List.Pairwise.nil (by simp) hm]
    rfl
  · exact List.pairwise_map.mpr hm

/-- A concrete NodeMap with one digit label and one letter label, keys in
sorted order. -/
def sample_node_map : List (String × (ℚ × ℚ)) := [("1", (5, 6)), ("A", (2, 3))]

/-- Witness for `node_map_round_trip`: the sample NodeMap is sorted and
survives the round trip unchanged. -/
theorem node_map_round_trip_witness :
    node_map_sorted sample_node_map ∧
      decode_node_map (encode_node_map sample_node_map) = some sample_node_map := by
  have h : node_map_sorted sample_node_map := by
    unfold node_map_sorted sample_node_map
    refine List.pairwise_cons.mpr ⟨?_, ?_⟩
    · intro b hb
      rw [List.mem_singleton.mp hb]
      decide
    · refine List.pairwise_cons.mpr ⟨?_, List.Pairwise.nil⟩
      intro b hb
      cases hb
  exact ⟨h, (node_map_round_trip sample_node_map h).1⟩

/-! ## Arrow paths (draw.rs create_arrow) -/

noncomputable section

/-- Euclidean length of a plane vector (`euclid` vector length). -/
def vlen (v : ℝ × ℝ) : ℝ := Real.sqrt (v.1 ^ 2 + v.2 ^ 2)

/-- Model of `euclid` `Vector2D::normalize`: divide both components by the
length. -/
def vnormalize (v : ℝ × ℝ) : ℝ × ℝ := (v.1 / vlen v, v.2 / vlen v)

/-- Model of `euclid` `Point2D::lerp`: `self + (other - self) * t`. -/
def vlerp (a b : ℝ × ℝ) (t : ℝ) : ℝ × ℝ :=
  (a.1 + (b.1 - a.1) * t, a.2 + (b.2 - a.2) * t)

/-- Model of `euclid` `Rotation2D::new(Angle::degrees(d)).transform_vector`:
counterclockwise rotation by `d` degrees. -/
def rotDeg (d : ℝ) (v : ℝ × ℝ) : ℝ × ℝ :=
  (Real.cos (d * Real.pi / 180) * v.1 - Real.sin (d * Real.pi / 180) * v.2,
   Real.sin (d * Real.pi / 180) * v.1 + Real.cos (d * Real.pi / 180) * v.2)

/-- Scalar multiple of a plane vector. -/
def smul (k : ℝ) (v : ℝ × ℝ) : ℝ × ℝ := (k * v.1, k * v.2)

/-- Dot product of plane vectors. -/
def dotp (a b : ℝ × ℝ) : ℝ := a.1 * b.1 + a.2 * b.2

/-- The midpoint `start.lerp(end, 0.5)` of `create_arrow`. -/
def arrow_mid (s e : ℝ × ℝ) : ℝ × ℝ := vlerp s e (1 / 2)

/-- The wing endpoint of `create_arrow` for rotation `d` degrees:
`mid - rotation.transform_vector(dire) * wing_length` with
`dire = (end - start).normalize()` and `wing_length = 60`. -/
def arrow_wing (d : ℝ) (s e : ℝ × ℝ) : ℝ × ℝ :=
  arrow_mid s e - smul 60 (rotDeg d (vnormalize (e - s)))

/-- Model of `create_arrow` from `draw.rs` (lines 172–188): a segment from
`start` to `end`, then from the midpoint a wing at +15 degrees and a wing at
−15 degrees, through the same path builder as every other path. -/
def create_arrow (s e : ℝ × ℝ) : Option (List (Verb (ℝ × ℝ))) :=
  pbFinish
    (pbLineTo
      (pbMoveTo
        (pbLineTo
          (pbMoveTo
            (pbLineTo (pbMoveTo ([] : List (Verb (ℝ × ℝ))) s) e)
            (arrow_mid s e))
          (arrow_wing 15 s e))
        (arrow_mid s e))
      (arrow_wing (-15) s e))

end

theorem vlen_smul (k : ℝ) (v : ℝ × ℝ) : vlen (smul k v) = |k| * vlen v := by
  unfold vlen smul
  rw [show (k * v.1) ^ 2 + (k * v.2) ^ 2 = k ^ 2 * (v.1 ^ 2 + v.2 ^ 2) by ring,
    Real.sqrt_mul (sq_nonneg k), Real.sqrt_sq_eq_abs]

theorem vlen_rotDeg (d : ℝ) (v : ℝ × ℝ) : vlen (rotDeg d v) = vlen v := by
  unfold vlen rotDeg
  congr 1
  have h := Real.sin_sq_add_cos_sq (d * Real.pi / 180)
  nlinarith [h]

theorem vlen_pos {v : ℝ × ℝ} (h : v ≠ 0) : 0 < vlen v := by
  unfold vlen
  apply Real.sqrt_pos.mpr
  by_cases h1 : v.1 = 0
  · have h2 : v.2 ≠ 0 := fun h2 => h (Prod.ext h1 h2)
    nlinarith [sq_nonneg v.1, pow_pos (abs_pos.mpr h2) 2, sq_abs v.2]
  · nlinarith [sq_nonneg v.2, pow_pos (abs_pos.mpr h1) 2, sq_abs v.1]

theorem vlen_vnormalize {v : ℝ × ℝ} (h : v ≠ 0) : vlen (vnormalize v) = 1 := by
  have hp := vlen_pos h
  have hs : vlen v ^ 2 = v.1 ^ 2 + v.2 ^ 2 := Real.sq_sqrt (by positivity)
  show Real.sqrt ((v.1 / vlen v) ^ 2 + (v.2 / vlen v) ^ 2) = 1
  rw [div_pow, div_pow, div_add_div_same, ← hs,
    div_self (ne_of_gt (by positivity)), Real.sqrt_one]

theorem sq_sum_of_vlen_one {v : ℝ × ℝ} (h : vlen v = 1) :
    v.1 ^ 2 + v.2 ^ 2 = 1 := by
  have : Real.sqrt (v.1 ^ 2 + v.2 ^ 2) = 1 := h
  have h2 := congrArg (fun x => x ^ 2) this
  simp only at h2
  rw [Real.sq_sqrt (by positivity)] at h2
  simpa using h2

theorem smul_vnormalize {v : ℝ × ℝ} (h : v ≠ 0) :
    smul (vlen v) (vnormalize v) = v := by
  have hp := vlen_pos h
  unfold smul vnormalize
  refine Prod.ext ?_ ?_
  · show vlen v * (v.1 / vlen v) = v.1
    field_simp
  · show vlen v * (v.2 / vlen v) = v.2
    field_simp

theorem dotp_rot_self (d : ℝ) (v : ℝ × ℝ) :
    dotp (rotDeg d v) v = Real.cos (d * Real.pi / 180) * (v.1 ^ 2 + v.2 ^ 2) := by
  unfold dotp rotDeg
  ring

theorem cos_deg_pos {d : ℝ} (h1 : -90 < d) (h2 : d < 90) :
    0 < Real.cos (d * Real.pi / 180) := by
  apply Real.cos_pos_of_mem_Ioo
  constructor
  · have := Real.pi_pos
    rw [show -(Real.pi / 2) = (-90) * Real.pi / 180 by ring]
    apply div_lt_div_of_pos_right _ (by norm_num)
    exact mul_lt_mul_of_pos_right h1 this
  · have := Real.pi_pos
    rw [show Real.pi / 2 = 90 * Real.pi / 180 by ring]
    apply div_lt_div_of_pos_right _ (by norm_num)
    exact mul_lt_mul_of_pos_right h2 this

theorem dotp_smul_left (k : ℝ) (a b : ℝ × ℝ) : dotp (smul k a) b = k * dotp a b := by
  unfold dotp smul
  ring

theorem dotp_smul_right (k : ℝ) (a b : ℝ × ℝ) : dotp a (smul k b) = k * dotp a b := by
  unfold dotp smul
  ring

theorem sub_smul_sub (m w : ℝ × ℝ) (k : ℝ) : m - smul k w - m = smul (-k) w := by
  refine Prod.ext ?_ ?_
  · show m.1 - k * w.1 - m.1 = -k * w.1
    ring
  · show m.2 - k * w.2 - m.2 = -k * w.2
    ring

/-- C8: for distinct endpoints, `create_arrow` produces exactly one straight
segment from `start` to `end` plus two wing segments that both begin at the
midpoint of that segment; each wing vector is the −60-multiple of the unit
direction rotated by +15 resp. −15 degrees, so the two wings have the equal
fixed length 60 and both point backward toward `start` (positive dot product
with `start − end`); the wings are centered at the midpoint, pinned
concretely by the midpoint of `(0,0)–(100,0)` being `(50,0)`. -/
theorem create_arrow_spec :
    ∀ s e : ℝ × ℝ, s ≠ e →
      (create_arrow s e =
        some [Verb.moveTo s, Verb.lineTo e, Verb.moveTo (arrow_mid s e),
          Verb.lineTo (arrow_wing 15 s e), Verb.moveTo (arrow_mid s e),
          Verb.lineTo (arrow_wing (-15) s e)]) ∧
      arrow_mid s e = ((s.1 + e.1) / 2, (s.2 + e.2) / 2) ∧
      arrow_wing 15 s e - arrow_mid s e =
        smul (-60) (rotDeg 15 (vnormalize (e - s))) ∧
      arrow_wing (-15) s e - arrow_mid s e =
        smul (-60) (rotDeg (-15) (vnormalize (e - s))) ∧
      vlen (arrow_wing 15 s e - arrow_mid s e) = 60 ∧
      vlen (arrow_wing (-15) s e - arrow_mid s e) = 60 ∧
      0 < dotp (arrow_wing 15 s e - arrow_mid s e) (s - e) ∧
      0 < dotp (arrow_wing (-15) s e - arrow_mid s e) (s - e) ∧
      arrow_mid (0, 0) (100, 0) = (50, 0) := by
  intro s e hne
  have hes : e - s ≠ 0 := sub_ne_zero.mpr (Ne.symm hne)
  have hL := vlen_pos hes
  have hn1 : vlen (vnormalize (e - s)) = 1 := vlen_vnormalize hes
  have hsq : (vnormalize (e - s)).1 ^ 2 + (vnormalize (e - s)).2 ^ 2 = 1 :=
    sq_sum_of_vlen_one hn1
  have hw15 : arrow_wing 15 s e - arrow_mid s e =
      smul (-60) (rotDeg 15 (vnormalize (e - s))) :=
    sub_smul_sub (arrow_mid s e) (rotDeg 15 (vnormalize (e - s))) 60
  have hw15n : arrow_wing (-15) s e - arrow_mid s e =
      smul (-60) (rotDeg (-15) (vnormalize (e - s))) :=
    sub_smul_sub (arrow_mid s e) (rotDeg (-15) (vnormalize (e - s))) 60
  have hse : s - e = smul (-(vlen (e - s))) (vnormalize (e - s)) := by
    have h := smul_vnormalize hes
    have h1 : vlen (e - s) * (vnormalize (e - s)).1 = e.1 - s.1 := congrArg Prod.fst h
    have h2 : vlen (e - s) * (vnormalize (e - s)).2 = e.2 - s.2 := congrArg Prod.snd h
    refine Prod.ext ?_ ?_
    · show s.1 - e.1 = -(vlen (e - s)) * (vnormalize (e - s)).1
      rw [neg_mul, h1]
      ring
    · show s.2 - e.2 = -(vlen (e - s)) * (vnormalize (e - s)).2
      rw [neg_mul, h2]
      ring
  have hc15 : 0 < Real.cos (15 * Real.pi / 180) :=
    cos_deg_pos (by norm_num) (by norm_num)
  have hc15n : 0 < Real.cos ((-15) * Real.pi / 180) :=
    cos_deg_pos (by norm_num) (by norm_num)
  refine ⟨rfl, ?_, hw15, hw15n, ?_, ?_, ?_, ?_, ?_⟩
  · refine Prod.ext ?_ ?_
    · show s.1 + (e.1 - s.1) * (1 / 2) = (s.1 + e.1) / 2
      ring
    · show s.2 + (e.2 - s.2) * (1 / 2) = (s.2 + e.2) / 2
      ring
  · rw [hw15, vlen_smul, vlen_rotDeg, hn1]
    norm_num
  · rw [hw15n, vlen_smul, vlen_rotDeg, hn1]
    norm_num
  · rw [hw15, hse, dotp_smul_left, dotp_smul_right, dotp_rot_self, hsq]
    nlinarith [mul_pos hL hc15]
  · rw [hw15n, hse, dotp_smul_left, dotp_smul_right, dotp_rot_self, hsq]
    nlinarith [mul_pos hL hc15n]
  · refine Prod.ext ?_ ?_
    · show (0 : ℝ) + (100 - 0) * (1 / 2) = 50
      norm_num
    · show (0 : ℝ) + (0 - 0) * (1 / 2) = 0
      norm_num

/-- Witness for `create_arrow_spec`: the endpoints `(0,0)` and `(100,0)` are
distinct, and the arrow consists of the straight segment plus the two wing
segments starting at the midpoint. -/
theorem create_arrow_spec_witness :
    ((0, 0) : ℝ × ℝ) ≠ ((100, 0) : ℝ × ℝ) ∧
      create_arrow (0, 0) (100, 0) =
        some [Verb.moveTo ((0 : ℝ), (0 : ℝ)), Verb.lineTo (100, 0),
          Verb.moveTo (arrow_mid (0, 0) (100, 0)),
          Verb.lineTo (arrow_wing 15 (0, 0) (100, 0)),
          Verb.moveTo (arrow_mid (0, 0) (100, 0)),
          Verb.lineTo (arrow_wing (-15) (0, 0) (100, 0))] := by
  have hp : ((0, 0) : ℝ × ℝ) ≠ ((100, 0) : ℝ × ℝ) := by
    intro h
    have h1 : (0 : ℝ) = 100 := congrArg Prod.fst h
    norm_num at h1
  exact ⟨hp, (create_arrow_spec (0, 0) (100, 0) hp).1⟩

/-! ## Start-room resolution (lib.rs start_level / traverse_element) -/

/-- Projection of `celesteloader::map::decode::Element`: the attribute map
(modelled as an association list of string keys and string values — the
source reads the start-level attribute with `v.get::<&str>().unwrap()`, so
only string values matter to these claims) and the child elements. -/
inductive Element where
  | mk (attributes : List (String × String)) (children : List Element)

/-- Attribute list of an element. -/
def Element.attributes : Element → List (String × String)
  | .mk a _ => a

/-- Child list of an element. -/
def Element.children : Element → List Element
  | .mk _ cs => cs

mutual

/-- Node count of an element tree, the termination measure of the
breadth-first traversal. -/
def Element.size : Element → ℕ
  | .mk _ cs => 1 + sizeList cs

/-- Node count of a forest. -/
def sizeList : List Element → ℕ
  | [] => 0
  | e :: es => Element.size e + sizeList es

end

/-- All children of all queue elements in order: one breadth-first level
down. -/
def childrenAll (l : List Element) : List Element := l.flatMap Element.children

theorem sizeList_append (a b : List Element) :
    sizeList (a ++ b) = sizeList a + sizeList b := by
  induction a with
  | nil => simp [sizeList]
  | cons e t ih =>
    show sizeList (e :: (t ++ b)) = sizeList (e :: t) + sizeList b
    simp only [sizeList]
    rw [ih]
    omega

theorem size_eq (e : Element) : e.size = 1 + sizeList e.children := by
  cases e
  rfl

theorem sizeList_childrenAll (l : List Element) :
    sizeList (childrenAll l) + l.length = sizeList l := by
  induction l with
  | nil => rfl
  | cons e t ih =>
    have hc : childrenAll (e :: t) = e.children ++ childrenAll t := by
      simp [childrenAll]
    rw [hc, sizeList_append]
    simp only [sizeList, List.length_cons]
    rw [size_eq e]
    omega

/-- Model of the breadth-first iterator of `traverse_element` (`lib.rs`
lines 81–100) as the sequence of visited elements: pop the front of the
queue, emit it, push its children at the back. -/
def traverse_element : List Element → List Element
  | [] => []
  | e :: rest => e :: traverse_element (rest ++ e.children)
termination_by l => sizeList l
decreasing_by
  rw [sizeList_append]
  simp only [sizeList]
  rw [size_eq e]
  omega

theorem traverse_element_nil : traverse_element [] = [] := by
  rw [traverse_element]

theorem traverse_element_cons (e : Element) (rest : List Element) :
    traverse_element (e :: rest) = e :: traverse_element (rest ++ e.children) := by
  rw [traverse_element]

theorem traverse_element_append (l₁ l₂ : List Element) :
    traverse_element (l₁ ++ l₂) = l₁ ++ traverse_element (l₂ ++ childrenAll l₁) := by
  induction l₁ generalizing l₂ with
  | nil =>
    simp [childrenAll]
  | cons e t ih =>
    show traverse_element (e :: (t ++ l₂)) = _
    rw [traverse_element_cons, List.append_assoc, ih (l₂ ++ e.children)]
    have hc : childrenAll (e :: t) = e.children ++ childrenAll t := by
      simp [childrenAll]
    rw [hc]
    simp [List.append_assoc]

/-- One step of the breadth-first level structure: the whole queue is
visited first, then everything below it. -/
theorem traverse_element_levels (l : List Element) :
    traverse_element l = l ++ traverse_element (childrenAll l) := by
  have h := traverse_element_append l []
  rw [List.append_nil] at h
  rw [h]
  rfl

/-- The k-th breadth-first level below a queue. -/
def levelQ (l : List Element) : ℕ → List Element
  | 0 => l
  | k + 1 => levelQ (childrenAll l) k

/-- Occurrence of an element at depth `k` in the tree rooted at `r`. -/
inductive NodeAt : Element → ℕ → Element → Prop where
  | refl (e : Element) : NodeAt e 0 e
  | child {r c e : Element} {k : ℕ} (hc : c ∈ r.children) (h : NodeAt c k e) :
      NodeAt r (k + 1) e

theorem levelQ_mem : ∀ (k : ℕ) (l : List Element) (e : Element),
    e ∈ levelQ l k ↔ ∃ r ∈ l, NodeAt r k e := by
  intro k
  induction k with
  | zero =>
    intro l e
    constructor
    · intro h
      exact ⟨e, h, NodeAt.refl e⟩
    · rintro ⟨r, hr, h⟩
      cases h
      exact hr
  | succ k ih =>
    intro l e
    show e ∈ levelQ (childrenAll l) k ↔ _
    rw [ih]
    constructor
    · rintro ⟨c, hc, h⟩
      rcases List.mem_flatMap.mp hc with ⟨p, hp, hcp⟩
      exact ⟨p, hp, NodeAt.child hcp h⟩
    · rintro ⟨p, hp, h⟩
      cases h with
      | child hc h2 =>
        exact ⟨_, List.mem_flatMap.mpr ⟨p, hp, hc⟩, h2⟩

/-- Breadth-first search property of the traversal: when searching the
visited sequence for the first element on which `f` fires, the hit comes
from the shallowest level containing any hit — every strictly shallower
level is entirely `f`-free. -/
theorem traverse_findSome_min (f : Element → Option String) :
    ∀ (n : ℕ) (l : List Element) (v : String), sizeList l = n →
      (traverse_element l).findSome? f = some v →
      ∃ k, (∃ e ∈ levelQ l k, f e = some v) ∧
        ∀ j, j < k → ∀ e ∈ levelQ l j, f e = none := by
  intro n
  induction n using Nat.strong_induction_on with
  | _ n ih =>
    intro l v hn hfind
    rw [traverse_element_levels, List.findSome?_append] at hfind
    cases hfl : l.findSome? f with
    | some w =>
      rw [hfl, Option.or_some] at hfind
      refine ⟨0, ?_, ?_⟩
      · obtain ⟨e, he, hfe⟩ :=
          List.exists_of_findSome?_eq_some (hfl.trans hfind)
        exact ⟨e, he, hfe⟩
      · intro j hj
        omega
    | none =>
      rw [hfl, Option.none_or] at hfind
      cases l with
      | nil =>
        rw [show childrenAll [] = [] from rfl, traverse_element_nil] at hfind
        cases hfind
      | cons a t =>
        have hlt : sizeList (childrenAll (a :: t)) < n := by
          have := sizeList_childrenAll (a :: t)
          simp only [List.length_cons] at this
          omega
        obtain ⟨k, hk1, hk2⟩ := ih _ hlt (childrenAll (a :: t)) v rfl hfind
        refine ⟨k + 1, hk1, ?_⟩
        intro j hj
        cases j with
        | zero =>
          intro e he
          exact List.findSome?_eq_none_iff.mp hfl e he
        | succ j2 =>
          intro e he
          exact hk2 j2 (by omega) e he

/-- The first start-level attribute value in breadth-first visit order
(`traverse_element(&root).find_map(|e| e.attributes.get("StartLevel")...)`). -/
def find_start_attr (root : Element) : Option String :=
  (traverse_element [root]).findSome? (fun e => e.attributes.lookup "StartLevel")

/-- Model of `start_level` (`lib.rs` lines 68–79): resolve the found
attribute value to a room by name, fall back to the first room when the
attribute is absent or unresolved, and fail (`expect`, modelled as `none`)
when the level has no rooms at all. -/
def start_level (root : Element) (mp : Map) : Option Room :=
  ((find_start_attr root).bind
      (fun n => mp.rooms.find? (fun r => r.name == n))).or (mp.rooms.get? 0)

/-- C6: `start_level` searches the object tree breadth-first (the visited
sequence lists each queue before everything below it), takes the start-level
attribute of the first carrier in that order — so the produced value comes
from a carrier of minimal depth, and any other carrier sits at depth at
least as large; if the value names a room it is returned, otherwise (value
unresolved, or no node carries the attribute) the first room is returned,
and a level with zero rooms makes the operation fail with `none` instead of
producing a room. -/
theorem start_level_spec :
    ∀ (root : Element) (mp : Map),
      (traverse_element [root] = root :: traverse_element (childrenAll [root])) ∧
      (∀ v, find_start_attr root = some v →
        ∃ k e, NodeAt root k e ∧ e.attributes.lookup "StartLevel" = some v ∧
          ∀ j e2 v2, NodeAt root j e2 →
            e2.attributes.lookup "StartLevel" = some v2 → k ≤ j) ∧
      (∀ v r, find_start_attr root = some v →
        mp.rooms.find? (fun r2 => r2.name == v) = some r →
        start_level root mp = some r) ∧
      (∀ v, find_start_attr root = some v →
        mp.rooms.find? (fun r2 => r2.name == v) = none →
        start_level root mp = mp.rooms.get? 0) ∧
      (find_start_attr root = none → start_level root mp = mp.rooms.get? 0) ∧
      (∀ r rest, mp.rooms = r :: rest → mp.rooms.get? 0 = some r) ∧
      (mp.rooms = [] → start_level root mp = none) := by
  intro root mp
  refine ⟨traverse_element_levels [root], ?_, ?_, ?_, ?_, ?_, ?_⟩
  · intro v hv
    obtain ⟨k, ⟨e, he, hfe⟩, hmin⟩ :=
      traverse_findSome_min (fun e => e.attributes.lookup "StartLevel")
        (sizeList [root]) [root] v rfl hv
    obtain ⟨r, hr, hnode⟩ := (levelQ_mem k [root] e).mp he
    rw [List.mem_singleton] at hr
    rw [hr] at hnode
    refine ⟨k, e, hnode, hfe, ?_⟩
    intro j e2 v2 hn2 ha2
    by_contra hlt
    have hj : j < k := by omega
    have he2 : e2 ∈ levelQ [root] j :=
      (levelQ_mem j [root] e2).mpr ⟨root, List.mem_singleton.mpr rfl, hn2⟩
    have := hmin j hj e2 he2
    rw [ha2] at this
    cases this
  · intro v r hv hf
    show ((find_start_attr root).bind
        (fun n => mp.rooms.find? (fun r2 => r2.name == n))).or (mp.rooms.get? 0) =
      some r
    rw [hv]
    show (mp.rooms.find? (fun r2 => r2.name == v)).or (mp.rooms.get? 0) = some r
    rw [hf]
    exact Option.or_some
  · intro v hv hf
    show ((find_start_attr root).bind
        (fun n => mp.rooms.find? (fun r2 => r2.name == n))).or (mp.rooms.get? 0) =
      mp.rooms.get? 0
    rw [hv]
    show (mp.rooms.find? (fun r2 => r2.name == v)).or (mp.rooms.get? 0) =
      mp.rooms.get? 0
    rw [hf]
    exact Option.none_or
  · intro hv
    show ((find_start_attr root).bind
        (fun n => mp.rooms.find? (fun r2 => r2.name == n))).or (mp.rooms.get? 0) =
      mp.rooms.get? 0
    rw [hv]
    exact Option.none_or
  · intro r rest hr
    rw [hr]
    rfl
  · intro hr
    cases hfa : find_start_attr root with
    | none => simp [start_level, hfa, hr]
    | some v => simp [start_level, hfa, hr]

/-- A small object tree: the root carries no start-level attribute, its only
child carries the value `"a"`. -/
def sample_tree : Element :=
  Element.mk [] [Element.mk [("StartLevel", "a")] []]

/-- Witness for `start_level_spec`: on `sample_tree` the breadth-first
search finds `"a"`, which resolves to the second room of `sample_map`
(named "a"), not the first. -/
theorem start_level_spec_witness :
    find_start_attr sample_tree = some "a" ∧
      start_level sample_tree sample_map =
        some { name := "a"
               entities := [{ name := "CollabUtils2/LobbyMapWarp", id := some 1,
                              position := (3, 4) }]
               triggers := [] } := by
  have h1 : find_start_attr sample_tree = some "a" := by
    simp [find_start_attr, sample_tree, traverse_element_cons,
      traverse_element_nil, Element.children, Element.attributes,
      List.findSome?_cons, List.lookup]
  have h2 : sample_map.rooms.find? (fun r2 => r2.name == "a") =
      some { name := "a"
             entities := [{ name := "CollabUtils2/LobbyMapWarp", id := some 1,
                            position := (3, 4) }]
             triggers := [] } := by
    decide
  exact ⟨h1, (start_level_spec sample_tree sample_map).2.2.1 "a" _ h1 h2⟩
